import Mathlib

set_option maxHeartbeats 1000000
set_option maxRecDepth 100000

/-!
Shallow embedding of the bp-db-diagram core: the SQL schema extractor
(parseSqlToGraph and its helpers) and the orthogonal edge router
(routeManhattanAStar, compressOrthogonal, enforceRightAngleEndpoints),
together with proofs of the specification claims.

Strings are modelled as lists of characters; the JS regular expressions of
the extractor are translated into explicit scanning functions, one per
regex, matching the source patterns piecewise.  JS numbers in the router
are modelled as rationals.
-/

/-- Character-list strings, the working representation of the extractor. -/
abbrev Str := List Char

/-- The single-quote character (code 39). -/
def sqc : Char := Char.ofNat 39

/-- The double-quote character (code 34). -/
def dqc : Char := Char.ofNat 34

/-- Whitespace class used by the source regexes (ASCII subset of JS \s). -/
def jsIsSpace (c : Char) : Bool :=
  c = ' ' || c = '\t' || c = '\n' || c = '\r' || c = '\x0b' || c = '\x0c'

/-- JS regex word class [A-Za-z0-9_]. -/
def isWordChar (c : Char) : Bool := c.isAlphanum || c = '_'

/-- Case-insensitive literal match: the pattern is given lowercased; returns
the suffix after the literal. -/
def litCI : Str → Str → Option Str
  | [], l => some l
  | _ :: _, [] => none
  | p :: ps, c :: cs => if c.toLower = p then litCI ps cs else none

/-- One-or-more whitespace (regex \s+), maximal munch; in every use site the
following token cannot match whitespace, so maximal munch agrees with the
backtracking regex semantics. -/
def dropWs1 : Str → Option Str
  | [] => none
  | c :: cs => if jsIsSpace c then some (cs.dropWhile jsIsSpace) else none

/-- JS String.trim (on the ASCII whitespace subset). -/
def trimWs (l : Str) : Str :=
  ((l.dropWhile jsIsSpace).reverse.dropWhile jsIsSpace).reverse

/-- Collapse adjacent spaces; applied after mapping each whitespace character
to a space this realises replacing whitespace runs by one space. -/
def squeezeSp : Str → Str
  | [] => []
  | [c] => [c]
  | a :: b :: r =>
    if a = ' ' && b = ' ' then squeezeSp (b :: r) else a :: squeezeSp (b :: r)

/-- Source normalizeWs: collapse whitespace runs to a single space and trim. -/
def normalizeWs (l : Str) : Str :=
  trimWs (squeezeSp (l.map fun c => if jsIsSpace c then ' ' else c))

/-- Source unquoteIdent: strip a leading and a trailing run of double quotes,
then trim. -/
def unquoteIdent (l : Str) : Str :=
  trimWs (((l.dropWhile (· = dqc)).reverse.dropWhile (· = dqc)).reverse)

/-- JS String.split on a single character; always returns a nonempty list. -/
def splitChar (c : Char) : Str → List Str
  | [] => [[]]
  | a :: r =>
    let rest := splitChar c r
    if a = c then [] :: rest
    else
      match rest with
      | h :: t => (a :: h) :: t
      | [] => [[a]]

/-- Source normalizeTableName: trim, unquote, keep the last dot segment. -/
def normalizeTableName (raw : Str) : Str :=
  (splitChar '.' (unquoteIdent (trimWs raw))).getLastD []

/-- Source baseTypeOf: drop one trailing array marker and trim. -/
def baseTypeOf (t : Str) : Str :=
  trimWs
    (match t.reverse with
     | ']' :: '[' :: rr => rr.reverse
     | _ => t)

/-- Cut one line at the first line-comment opener. -/
def cutLineComment : Str → Str
  | [] => []
  | '-' :: '-' :: _ => []
  | c :: r => c :: cutLineComment r

/-- Remove line comments per line (the multiline regex in stripComments). -/
def stripLineComments (l : Str) : Str :=
  List.intercalate ['\n'] ((splitChar '\n' l).map cutLineComment)

/-- Suffix after the first block-comment closer, if any. -/
def afterBlockClose : Str → Option Str
  | [] => none
  | '*' :: '/' :: r => some r
  | _ :: r => afterBlockClose r

/-- Remove block comments (non-greedy); an unclosed opener is kept verbatim
because the source pattern then has no match. -/
def stripBlockComments : Nat → Str → Str
  | 0, l => l
  | _ + 1, [] => []
  | fuel + 1, '/' :: '*' :: r =>
    (match afterBlockClose r with
     | some r2 => stripBlockComments fuel r2
     | none => '/' :: '*' :: r)
  | fuel + 1, c :: r => c :: stripBlockComments fuel r

/-- Source stripComments: line comments first, then block comments. -/
def stripComments (l : Str) : Str :=
  stripBlockComments (stripLineComments l).length (stripLineComments l)

/-- Top-level comma split, quote- and paren-aware (source splitTopLevelComma
loop body; cur accumulates the current part reversed). -/
def stlcGo : Str → Nat → Bool → Bool → Str → List Str → List Str
  | [], _, _, _, cur, parts => parts ++ [trimWs cur.reverse]
  | ch :: r, depth, inS, inD, cur, parts =>
    let inS2 := if ch = sqc && !inD then !inS else inS
    let inD2 := if ch = dqc && !inS2 then !inD else inD
    if !inS2 && !inD2 then
      if ch = '(' then stlcGo r (depth + 1) inS2 inD2 (ch :: cur) parts
      else if ch = ')' then stlcGo r (depth - 1) inS2 inD2 (ch :: cur) parts
      else if ch = ',' && depth = 0 then
        stlcGo r depth inS2 inD2 [] (parts ++ [trimWs cur.reverse])
      else stlcGo r depth inS2 inD2 (ch :: cur) parts
    else stlcGo r depth inS2 inD2 (ch :: cur) parts

/-- Source splitTopLevelComma: split a table body on depth-zero commas and
drop empty items. -/
def splitTopLevelComma (body : Str) : List Str :=
  (stlcGo body 0 false false [] []).filter (fun p => !p.isEmpty)

/-- Suffix after a case-insensitive create-table keyword at the head. -/
def dropCreateTable (l : Str) : Option Str := litCI ("create table".data) l

/-- Leftmost occurrence of the create-table keyword (indexOf on the
lowercased text). -/
def findCreateTable : Str → Option Str
  | [] => none
  | c :: r =>
    match dropCreateTable (c :: r) with
    | some rest => some rest
    | none => findCreateTable r

/-- Character class of an unquoted table name in parseCreateTableBlocks. -/
def isTblNameChar (c : Char) : Bool := c.isAlphanum || c = '_' || c = '.' || c = dqc

/-- The body scan of parseCreateTableBlocks: consume characters with a
parenthesis depth counter suppressed inside quotes; returns the consumed
characters (the body is the consumed run without its final character,
matching the slice bounds of the source) and the rest. -/
def readBody : Str → Nat → Bool → Bool → Str × Str
  | [], _, _, _ => ([], [])
  | ch :: r, depth, inS, inD =>
    if ch = sqc && !inD then
      let p := readBody r depth (!inS) inD
      (ch :: p.1, p.2)
    else if ch = dqc && !inS then
      let p := readBody r depth inS (!inD)
      (ch :: p.1, p.2)
    else if !inS && !inD && ch = '(' then
      let p := readBody r (depth + 1) inS inD
      (ch :: p.1, p.2)
    else if !inS && !inD && ch = ')' then
      if depth = 1 then ([ch], r)
      else
        let p := readBody r (depth - 1) inS inD
        (ch :: p.1, p.2)
    else
      let p := readBody r depth inS inD
      (ch :: p.1, p.2)

/-- The main loop of parseCreateTableBlocks: locate each create-table
keyword, read the (possibly quoted) name, scan to the opening parenthesis
and consume the body. -/
def pcbF : Nat → Str → List (Str × Str)
  | 0, _ => []
  | fuel + 1, s =>
    match findCreateTable s with
    | none => []
    | some afterKw =>
      let afterWs := afterKw.dropWhile jsIsSpace
      let np :=
        if afterWs.head? = some dqc then
          (afterWs.tail.takeWhile (fun c => c ≠ dqc),
           (afterWs.tail.dropWhile (fun c => c ≠ dqc)).drop 1)
        else
          (afterWs.takeWhile isTblNameChar, afterWs.dropWhile isTblNameChar)
      let name := normalizeTableName np.1
      match np.2.dropWhile (fun c => c ≠ '(') with
      | [] => pcbF fuel np.2
      | _ :: bodyStart =>
        let p := readBody bodyStart 1 false false
        (name, p.1.dropLast) :: pcbF fuel p.2

/-- Source parseCreateTableBlocks (names already normalized). -/
def parseCreateTableBlocks (s : Str) : List (Str × Str) := pcbF s.length s

/-- Word-boundary test after a keyword (regex \b). -/
def wordAfterOk : Str → Bool
  | [] => true
  | c :: _ => !isWordChar c

/-- Test for one keyword with a trailing boundary at the head. -/
def testHere1 (w : Str) (l : Str) : Bool :=
  match litCI w l with
  | some rest => wordAfterOk rest
  | none => false

/-- Test for keyword-whitespace-keyword with a trailing boundary at the head. -/
def testHere2 (w1 w2 : Str) (l : Str) : Bool :=
  match litCI w1 l with
  | none => false
  | some r1 =>
    match dropWs1 r1 with
    | none => false
    | some r2 =>
      match litCI w2 r2 with
      | some rest => wordAfterOk rest
      | none => false

/-- Scan for a boundary-preceded keyword anywhere in the text. -/
def scanWord1 (w : Str) : Bool → Str → Bool
  | _, [] => false
  | prevW, c :: r => (!prevW && testHere1 w (c :: r)) || scanWord1 w (isWordChar c) r

/-- Regex test \bw\b (case-insensitive) anywhere in the text. -/
def hasWord1 (w : Str) (l : Str) : Bool := scanWord1 w false l

/-- Scan for a boundary-preceded keyword pair anywhere in the text. -/
def scanWord2 (w1 w2 : Str) : Bool → Str → Bool
  | _, [] => false
  | prevW, c :: r =>
    (!prevW && testHere2 w1 w2 (c :: r)) || scanWord2 w1 w2 (isWordChar c) r

/-- Regex test \bw1\s+w2\b (case-insensitive) anywhere in the text. -/
def hasWord2 (w1 w2 : Str) (l : Str) : Bool := scanWord2 w1 w2 false l

/-- Anchored keyword test with a trailing boundary. -/
def startsWord1 (w : Str) (l : Str) : Bool := testHere1 w l

/-- Anchored keyword-pair test with a trailing boundary. -/
def startsWord2 (w1 w2 : Str) (l : Str) : Bool := testHere2 w1 w2 l

def kwCreate : Str := "create".data
def kwType : Str := "type".data
def kwAs : Str := "as".data
def kwEnum : Str := "enum".data
def kwUnique : Str := "unique".data
def kwIndex : Str := "index".data
def kwOn : Str := "on".data
def kwUsing : Str := "using".data
def kwInclude : Str := "include".data
def kwWhere : Str := "where".data
def kwForeign : Str := "foreign".data
def kwKey : Str := "key".data
def kwReferences : Str := "references".data
def kwConstraint : Str := "constraint".data
def kwPrimary : Str := "primary".data
def kwNot : Str := "not".data
def kwNull : Str := "null".data
def kwCheck : Str := "check".data
def kwWith : Str := "with".data
def kwWithout : Str := "without".data
def kwTime : Str := "time".data
def kwZone : Str := "zone".data
def kwVarying : Str := "varying".data

/-- Word-or-dot class of a referenced table name. -/
def isWordDot (c : Char) : Bool := isWordChar c || c = '.'

/-- Capture for a possibly schema-qualified, possibly quoted table name; the
quotes belong to the capture, as in the source pattern. -/
def capTable (l : Str) : Option (Str × Str) :=
  let q1l := if l.head? = some dqc then ([dqc], l.tail) else (([] : Str), l)
  let chars := q1l.2.takeWhile isWordDot
  if chars.isEmpty then none
  else
    let l2 := q1l.2.dropWhile isWordDot
    let q2l := if l2.head? = some dqc then ([dqc], l2.tail) else (([] : Str), l2)
    some (q1l.1 ++ chars ++ q2l.1, q2l.2)

/-- Capture for an optionally-quoted word; the quotes are outside the capture. -/
def capWordQ (l : Str) : Option (Str × Str) :=
  let l1 := if l.head? = some dqc then l.tail else l
  let chars := l1.takeWhile isWordChar
  if chars.isEmpty then none
  else
    let l2 := l1.dropWhile isWordChar
    let l3 := if l2.head? = some dqc then l2.tail else l2
    some (chars, l3)

/-- The optional parenthesized target-column group of both FK patterns. -/
def capColGroup (l : Str) : Option (Str × Str) :=
  match l with
  | '(' :: r =>
    let r1 := r.dropWhile jsIsSpace
    match capWordQ r1 with
    | none => none
    | some (w, r2) =>
      match r2.dropWhile jsIsSpace with
      | ')' :: r3 => some (w, r3)
      | _ => none
  | _ => none

/-- Core of the table-level FK pattern, from the foreign keyword onwards;
returns the local column, the raw target table and the optional target
column. -/
def fkCore (l : Str) : Option (Str × Str × Option Str) := do
  let r1 ← litCI kwForeign l
  let r2 ← dropWs1 r1
  let r3 ← litCI kwKey r2
  match r3.dropWhile jsIsSpace with
  | '(' :: r4 =>
    let r5 := r4.dropWhile jsIsSpace
    match capWordQ r5 with
    | none => none
    | some (fromCol, r6) =>
      match r6.dropWhile jsIsSpace with
      | ')' :: r7 => do
        let r8 ← dropWs1 r7
        let r9 ← litCI kwReferences r8
        let r10 ← dropWs1 r9
        match capTable r10 with
        | none => none
        | some (tbl, r11) =>
          match capColGroup (r11.dropWhile jsIsSpace) with
          | some (tc, _) => some (fromCol, tbl, some tc)
          | none => some (fromCol, tbl, none)
      | _ => none
  | _ => none

/-- The optional named-constraint prefix of the table-level FK pattern. -/
def fkPrefixed (l : Str) : Option (Str × Str × Option Str) := do
  let r1 ← litCI kwConstraint l
  let r2 ← dropWs1 r1
  let r3 := if r2.head? = some dqc then r2.tail else r2
  let nm := r3.takeWhile (fun c => !(c = dqc || jsIsSpace c))
  if nm.isEmpty then none
  else
    let r4 := r3.dropWhile (fun c => !(c = dqc || jsIsSpace c))
    let r5 := if r4.head? = some dqc then r4.tail else r4
    match dropWs1 r5 with
    | none => none
    | some r6 => fkCore r6

/-- The table-level FK pattern tried at one position (optional prefix first). -/
def matchFkAt (l : Str) : Option (Str × Str × Option Str) :=
  match fkPrefixed l with
  | some res => some res
  | none => fkCore l

/-- Unanchored search for the table-level FK pattern (regex exec). -/
def execFk : Str → Option (Str × Str × Option Str)
  | [] => none
  | c :: r =>
    match matchFkAt (c :: r) with
    | some res => some res
    | none => execFk r

/-- Continuation after the lazy middle of the column-level pattern: the
whitespace-references-whitespace run and the target captures. -/
def refSuffix (m : Str) : Option (Str × Option Str) := do
  let r1 ← dropWs1 m
  let r2 ← litCI kwReferences r1
  let r3 ← dropWs1 r2
  match capTable r3 with
  | none => none
  | some (tbl, r4) =>
    match capColGroup (r4.dropWhile jsIsSpace) with
    | some (tc, _) => some (tbl, some tc)
    | none => some (tbl, none)

/-- The lazy middle of the column-level pattern: consume at least one
character, then the shortest extension whose continuation matches. -/
def lazyRef : Str → Option (Str × Option Str)
  | [] => none
  | _ :: r =>
    match refSuffix r with
    | some res => some res
    | none => lazyRef r

/-- The anchored column-level REFERENCES pattern; returns the leading column
name, the raw target table and the optional target column. -/
def matchColRef (l : Str) : Option (Str × Str × Option Str) := do
  let p ← capWordQ l
  let r2 ← dropWs1 p.2
  match lazyRef r2 with
  | none => none
  | some (tbl, tc) => some (p.1, tbl, tc)

/-- The anchored column-name pattern: optionally quoted word, whitespace,
then a nonempty newline-free remainder. -/
def colNameSplit (l : Str) : Option (Str × Str) := do
  let p ← capWordQ l
  let rest ← dropWs1 p.2
  if rest.isEmpty || rest.any (fun c => c = '\n') then none
  else some (p.1, rest)

/-- One whitespace-separated multiword alternative of the type-token pattern. -/
def multiWordSuffix : List Str → Str → Option Str
  | [], l => some l
  | w :: ws, l => do
    let r1 ← dropWs1 l
    let r2 ← litCI w r1
    multiWordSuffix ws r2

/-- The multiword alternatives of the type-token pattern, in source order. -/
def typeAltSuffix (l : Str) : Option Str :=
  match multiWordSuffix [kwWith, kwTime, kwZone] l with
  | some r => some r
  | none =>
    match multiWordSuffix [kwWithout, kwTime, kwZone] l with
    | some r => some r
    | none => multiWordSuffix [kwVarying] l

/-- The optional parenthesized size or precision clause of the type token. -/
def parenGroupSuffix (l : Str) : Option Str :=
  match l.dropWhile jsIsSpace with
  | '(' :: r1 =>
    (match r1.dropWhile (fun c => c ≠ ')') with
     | ')' :: r2 => some r2
     | _ => none)
  | _ => none

/-- The anchored type-token pattern of a column definition; returns the full
match (the consumed prefix of the remainder). -/
def matchTypeToken (rest : Str) : Option Str :=
  let r0 := rest.dropWhile jsIsSpace
  let letters := r0.takeWhile (fun c => c.isAlpha || c = '_')
  if letters.isEmpty then none
  else
    let r1 := r0.dropWhile (fun c => c.isAlpha || c = '_')
    let r2 := match typeAltSuffix r1 with | some r => r | none => r1
    let r3 := match parenGroupSuffix r2 with | some r => r | none => r2
    let r4 :=
      match r3 with
      | '[' :: ']' :: rr => rr
      | _ => r3
    some (rest.take (rest.length - r4.length))

/-- Body of one single-quoted enum literal with doubled-quote pairs; returns
the raw capture and the suffix after the closing quote.  A doubled pair is
consumed greedily; if the literal never closes the pair is reopened as a
closing quote, matching the backtracking of the source pattern. -/
def quotedBody : Str → Option (Str × Str)
  | [] => none
  | c :: r =>
    if c = sqc then
      match r with
      | c2 :: r2 =>
        if c2 = sqc then
          match quotedBody r2 with
          | some (cap, rest) => some (c :: c2 :: cap, rest)
          | none => some ([], r)
        else some ([], r)
      | [] => some ([], [])
    else
      match quotedBody r with
      | some (cap, rest) => some (c :: cap, rest)
      | none => none

/-- Replace each doubled single quote by one quote (the unescape step). -/
def unescapeQuotes : Str → Str
  | [] => []
  | [c] => [c]
  | c :: c2 :: r2 =>
    if c = sqc && c2 = sqc then c :: unescapeQuotes r2
    else c :: unescapeQuotes (c2 :: r2)

/-- The global single-quoted-literal scan inside an enum body. -/
def scanEnumVals : Nat → Str → List Str
  | 0, _ => []
  | _ + 1, [] => []
  | fuel + 1, c :: r =>
    if c = sqc then
      match quotedBody r with
      | some (cap, rest) => unescapeQuotes cap :: scanEnumVals fuel rest
      | none => scanEnumVals fuel r
    else scanEnumVals fuel r

/-- The create-type-as-enum pattern tried at one position; returns the raw
name, the body and the suffix after the whole match. -/
def matchEnumAt (l : Str) : Option ((Str × Str) × Str) := do
  let r1 ← litCI kwCreate l
  let r2 ← dropWs1 r1
  let r3 ← litCI kwType r2
  let r4 ← dropWs1 r3
  match capTable r4 with
  | none => none
  | some (nameRaw, r5) => do
    let r6 ← dropWs1 r5
    let r7 ← litCI kwAs r6
    let r8 ← dropWs1 r7
    let r9 ← litCI kwEnum r8
    match r9.dropWhile jsIsSpace with
    | '(' :: r10 =>
      let body := r10.takeWhile (fun c => c ≠ ')')
      (match r10.dropWhile (fun c => c ≠ ')') with
       | ')' :: r11 =>
         let r12 := r11.dropWhile jsIsSpace
         let r13 := match r12 with | ';' :: rr => rr | _ => r12
         some ((nameRaw, body), r13)
       | _ => none)
    | _ => none

/-- The global enum-definition scan (regex exec loop). -/
def scanEnums : Nat → Str → List (Str × Str)
  | 0, _ => []
  | _ + 1, [] => []
  | fuel + 1, c :: r =>
    match matchEnumAt (c :: r) with
    | some (nb, rest) => nb :: scanEnums fuel rest
    | none => scanEnums fuel r

/-- Source SqlEnum. -/
structure SqlEnum where
  name : String
  values : List String
deriving DecidableEq, Repr

/-- Source parseEnumTypes. -/
def parseEnumTypes (sql : Str) : List SqlEnum :=
  (scanEnums sql.length sql).map fun nb =>
    { name := ⟨normalizeTableName nb.1⟩,
      values := (scanEnumVals nb.2.length nb.2).map (fun v => (⟨v⟩ : String)) }

/-- Source SqlIndex; the include and where fields are renamed includeCols and
whereClause because where is a Lean keyword. -/
structure SqlIndex where
  name : String
  table : String
  unique : Bool
  method : Option String
  expression : String
  includeCols : Option String
  whereClause : Option String
deriving DecidableEq, Repr

/-- Lowercase a character-list string. -/
def lowerStr (l : Str) : Str := l.map Char.toLower

/-- The create-index pattern tried at one position. -/
def matchIndexAt (l : Str) : Option (SqlIndex × Str) := do
  let r1 ← litCI kwCreate l
  let r2 ← dropWs1 r1
  let uq :=
    match litCI kwUnique r2 with
    | some ru =>
      (match dropWs1 ru with
       | some ru2 => (true, ru2)
       | none => (false, r2))
    | none => (false, r2)
  let r3 ← litCI kwIndex uq.2
  let r4 ← dropWs1 r3
  let n1 := if r4.head? = some dqc then ([dqc], r4.tail) else (([] : Str), r4)
  let nmChars := n1.2.takeWhile (fun c => !(c = dqc || jsIsSpace c || c = ';'))
  if nmChars.isEmpty then none
  else do
    let n2 := n1.2.dropWhile (fun c => !(c = dqc || jsIsSpace c || c = ';'))
    let n3 := if n2.head? = some dqc then ([dqc], n2.tail) else (([] : Str), n2)
    let rawName := n1.1 ++ nmChars ++ n3.1
    let r5 ← dropWs1 n3.2
    let r6 ← litCI kwOn r5
    let r7 ← dropWs1 r6
    match capTable r7 with
    | none => none
    | some (rawTbl, r8) =>
      let r9 := r8.dropWhile jsIsSpace
      let mu :=
        match litCI kwUsing r9 with
        | some u1 =>
          (match dropWs1 u1 with
           | some u2 =>
             let m := u2.takeWhile isWordChar
             if m.isEmpty then ((none : Option Str), r9)
             else (some m, (u2.dropWhile isWordChar).dropWhile jsIsSpace)
           | none => ((none : Option Str), r9))
        | none => ((none : Option Str), r9)
      match mu.2 with
      | '(' :: rB =>
        let exprBody := rB.takeWhile (fun c => c ≠ ')')
        (match rB.dropWhile (fun c => c ≠ ')') with
         | ')' :: rC =>
           let rY := rC.dropWhile jsIsSpace
           let inc :=
             match litCI kwInclude rY with
             | some i1 =>
               (match i1.dropWhile jsIsSpace with
                | '(' :: i3 =>
                  let b := i3.takeWhile (fun c => c ≠ ')')
                  (match i3.dropWhile (fun c => c ≠ ')') with
                   | ')' :: i4 => (some b, i4.dropWhile jsIsSpace)
                   | _ => ((none : Option Str), rY))
                | _ => ((none : Option Str), rY))
             | none => ((none : Option Str), rY)
           let whr :=
             match litCI kwWhere inc.2 with
             | some w1 =>
               (match w1.dropWhile jsIsSpace with
                | '(' :: w3 =>
                  let b := w3.takeWhile (fun c => c ≠ ')')
                  (match w3.dropWhile (fun c => c ≠ ')') with
                   | ')' :: w4 => (some b, w4.dropWhile jsIsSpace)
                   | _ => ((none : Option Str), inc.2))
                | _ => ((none : Option Str), inc.2))
             | none => ((none : Option Str), inc.2)
           let rEnd := match whr.2 with | ';' :: rr => rr | _ => whr.2
           some
             ({ name := ⟨unquoteIdent rawName⟩,
                table := ⟨normalizeTableName rawTbl⟩,
                unique := uq.1,
                method := mu.1.map (fun m => (⟨lowerStr m⟩ : String)),
                expression := ⟨normalizeWs exprBody⟩,
                includeCols :=
                  inc.1.bind (fun b => if b.isEmpty then none else some (⟨normalizeWs b⟩ : String)),
                whereClause :=
                  whr.1.bind (fun b => if b.isEmpty then none else some (⟨normalizeWs b⟩ : String)) },
              rEnd)
         | _ => none)
      | _ => none

/-- The global create-index scan (regex exec loop). -/
def scanIndexes : Nat → Str → List SqlIndex
  | 0, _ => []
  | _ + 1, [] => []
  | fuel + 1, c :: r =>
    match matchIndexAt (c :: r) with
    | some (idx, rest) => idx :: scanIndexes fuel rest
    | none => scanIndexes fuel r

/-- Source fkTo target. -/
structure FkTarget where
  table : String
  column : Option String
deriving DecidableEq, Repr

/-- Source SqlColumn (optional JS fields modelled with defaults). -/
structure SqlColumn where
  name : String
  type : String
  isPrimaryKey : Bool
  isNotNull : Bool
  isForeignKey : Bool
  fkTo : Option FkTarget
  isEnum : Bool
  enumName : Option String
deriving DecidableEq, Repr

/-- Source SqlTable. -/
structure SqlTable where
  name : String
  columns : List SqlColumn
  indexes : List SqlIndex
deriving DecidableEq, Repr

/-- Source SqlRelation (the optional id always present after construction). -/
structure SqlRelation where
  id : String
  fromTable : String
  fromColumn : String
  toTable : String
  toColumn : String
deriving DecidableEq, Repr

/-- Source SqlGraph. -/
structure SqlGraph where
  tables : List SqlTable
  relations : List SqlRelation
  enums : List SqlEnum
deriving DecidableEq, Repr

/-- The synthetic relation id, with a question mark for a missing target
column. -/
def mkRelId (ft fc tt tc : String) : String :=
  ft ++ "." ++ fc ++ "->" ++ tt ++ "." ++ (if tc = "" then "?" else tc)

/-- Strip every parenthesized group of a type string (the global replace in
the enum-detection step). -/
def removeParenGroups : Nat → Str → Str
  | 0, l => l
  | _ + 1, [] => []
  | fuel + 1, c :: r =>
    if c = '(' then
      match r.dropWhile (fun x => x ≠ ')') with
      | ')' :: r2 => removeParenGroups fuel r2
      | _ => c :: removeParenGroups fuel r
    else c :: removeParenGroups fuel r

/-- Case-insensitive suffix test. -/
def endsWithCI (pat : Str) (l : Str) : Bool :=
  (lowerStr l).reverse.take pat.length == pat.reverse

/-- Enum detection of a column type: strip parenthesized groups and the array
marker, normalize, then test membership in the discovered enum set or the
name-suffix heuristic. -/
def detectEnum (enumNames : List String) (ty : Str) : Option String :=
  let en := normalizeTableName (baseTypeOf (removeParenGroups ty.length ty))
  if enumNames.contains (⟨en⟩ : String) || endsWithCI ("_enum".data) en then
    some ⟨en⟩
  else none

/-- Classification of one table-body item (the loop body of parseSqlToGraph):
table-level FK, pure constraint noise, or a column definition with optional
column-level REFERENCES and enum flagging. -/
def processItem (enumNames : List String) (tableName : String)
    (st : List SqlColumn × List SqlRelation) (item : Str) :
    List SqlColumn × List SqlRelation :=
  let line := normalizeWs item
  match execFk line with
  | some (fc, tRaw, tcOpt) =>
    let fromColumn : String := ⟨unquoteIdent fc⟩
    let toTable : String := ⟨normalizeTableName tRaw⟩
    let toColumn : String :=
      match tcOpt with
      | some tc => ⟨unquoteIdent tc⟩
      | none => ""
    (st.1, st.2 ++ [{ id := mkRelId tableName fromColumn toTable toColumn,
                      fromTable := tableName, fromColumn := fromColumn,
                      toTable := toTable, toColumn := toColumn }])
  | none =>
    if startsWord1 kwConstraint line && !hasWord1 kwReferences line then st
    else if startsWord2 kwPrimary kwKey line then st
    else if startsWord1 kwUnique line then st
    else if startsWord1 kwCheck line then st
    else
      match colNameSplit line with
      | none => st
      | some (nmRaw, rest) =>
        let colName : String := ⟨unquoteIdent nmRaw⟩
        let isPk := hasWord2 kwPrimary kwKey rest
        let isNN := isPk || hasWord2 kwNot kwNull rest
        let typeStr : Str :=
          match matchTypeToken rest with
          | some m0 => normalizeWs m0
          | none => (normalizeWs rest).takeWhile (fun c => c ≠ ' ')
        let enumOpt := detectEnum enumNames typeStr
        let fkp :
            Bool × Option FkTarget × List SqlRelation :=
          match matchColRef line with
          | some (fc, tRaw, tcOpt) =>
            let fromColumn : String := ⟨unquoteIdent fc⟩
            let toTable : String := ⟨normalizeTableName tRaw⟩
            let tcS : Option String := tcOpt.map (fun tc => (⟨unquoteIdent tc⟩ : String))
            let toColumn : String := match tcS with | some s => s | none => ""
            (true, some { table := toTable, column := tcS },
             [{ id := mkRelId tableName fromColumn toTable toColumn,
                fromTable := tableName, fromColumn := fromColumn,
                toTable := toTable, toColumn := toColumn }])
          | none => (false, none, [])
        let col : SqlColumn :=
          { name := colName, type := ⟨typeStr⟩, isPrimaryKey := isPk, isNotNull := isNN,
            isForeignKey := fkp.1, fkTo := fkp.2.1,
            isEnum := enumOpt.isSome, enumName := enumOpt }
        (st.1 ++ [col], st.2 ++ fkp.2.2)

/-- One create-table block turned into a table and its raw relations. -/
def buildTable (enumNames : List String) (blk : Str × Str) : SqlTable × List SqlRelation :=
  let p := (splitTopLevelComma blk.2).foldl (processItem enumNames ⟨blk.1⟩) ([], [])
  ({ name := ⟨blk.1⟩, columns := p.1, indexes := [] }, p.2)

/-- The per-column first-wins primary-key registration of one table. -/
def pkInsertCols (tn : String) (m : List (String × String)) (cols : List SqlColumn) :
    List (String × String) :=
  cols.foldl
    (fun m c =>
      if c.isPrimaryKey && !(m.any (fun p => p.1 = tn)) then m ++ [(tn, c.name)] else m)
    m

/-- The pkByTable map of the source, built over tables in discovery order. -/
def buildPkMap (ts : List SqlTable) : List (String × String) :=
  ts.foldl (fun m t => pkInsertCols t.name m t.columns) []

/-- Membership of a table name (the has test of the name-keyed map). -/
def hasNamed (ts : List SqlTable) (nm : String) : Bool := ts.any (fun t => t.name = nm)

/-- Update the last table with the given name (the name-keyed map holds the
last table of each name, and mutating it is visible at that list position). -/
def updateLastNamed : List SqlTable → String → (SqlTable → SqlTable) → List SqlTable
  | [], _, _ => []
  | t :: ts, nm, f =>
    if hasNamed ts nm then t :: updateLastNamed ts nm f
    else if t.name = nm then f t :: ts
    else t :: updateLastNamed ts nm f

/-- Update the first column with the given name (the find call of the FK
marking step). -/
def updateFirstCol : List SqlColumn → String → (SqlColumn → SqlColumn) → List SqlColumn
  | [], _, _ => []
  | c :: cs, nm, f => if c.name = nm then f c :: cs else c :: updateFirstCol cs nm f

/-- First-entry lookup in the primary-key map. -/
def pkLookup (m : List (String × String)) (nm : String) : Option String :=
  (m.find? (fun p => p.1 = nm)).map (fun p => p.2)

/-- Resolution of a missing FK target column: the target table primary key if
known, else the literal id; the synthetic id is rebuilt. -/
def resolveRel (pk : List (String × String)) (r : SqlRelation) : SqlRelation :=
  let tc :=
    if r.toColumn ≠ "" then r.toColumn
    else
      match pkLookup pk r.toTable with
      | some p => p
      | none => "id"
  { r with toColumn := tc,
           id := r.fromTable ++ "." ++ r.fromColumn ++ "->" ++ r.toTable ++ "." ++ tc }

/-- Field update of one column marked as a foreign key by the resolution
step. -/
def setFkFields (tt tc : String) (c : SqlColumn) : SqlColumn :=
  { c with isForeignKey := true, fkTo := some { table := tt, column := some tc } }

/-- Mark the source column of a resolved relation as a foreign key. -/
def markFkCol (r : SqlRelation) (t : SqlTable) : SqlTable :=
  { t with columns := updateFirstCol t.columns r.fromColumn (setFkFields r.toTable r.toColumn) }

/-- The comment-stripped input of one extraction run. -/
def cleanedOf (sql : String) : Str := stripComments sql.data

/-- The discovered enum definitions of one run. -/
def enumsOf (sql : String) : List SqlEnum := parseEnumTypes (cleanedOf sql)

/-- The per-block build results (table and raw relations) of one run. -/
def builtOf (sql : String) : List (SqlTable × List SqlRelation) :=
  (parseCreateTableBlocks (cleanedOf sql)).map
    (buildTable ((enumsOf sql).map (fun e => e.name)))

/-- The tables of one run before index attachment and FK marking. -/
def tables0Of (sql : String) : List SqlTable := (builtOf sql).map (fun p => p.1)

/-- The raw (unresolved) relation list of one run, in discovery order. -/
def rawRelsOf (sql : String) : List SqlRelation :=
  ((builtOf sql).map (fun p => p.2)).flatten

/-- The pkByTable map of one run. -/
def pkMapOf (sql : String) : List (String × String) := buildPkMap (tables0Of sql)

/-- The discovered indexes of one run. -/
def indexesOf (sql : String) : List SqlIndex :=
  scanIndexes (cleanedOf sql).length (cleanedOf sql)

/-- The tables of one run after index attachment. -/
def tables1Of (sql : String) : List SqlTable :=
  (indexesOf sql).foldl
    (fun ts idx =>
      updateLastNamed ts idx.table (fun t => { t with indexes := t.indexes ++ [idx] }))
    (tables0Of sql)

/-- The resolved relation list of one run: missing target columns resolved,
relations to unknown tables dropped. -/
def resolvedOf (sql : String) : List SqlRelation :=
  ((rawRelsOf sql).map (resolveRel (pkMapOf sql))).filter
    (fun r => hasNamed (tables1Of sql) r.fromTable && hasNamed (tables1Of sql) r.toTable)

/-- Source parseSqlToGraph: comment stripping, enum and index scans, block
discovery, per-block item classification, index attachment, FK resolution
with the unknown-table filter, and FK column marking.  Total by
construction: every input string yields a SqlGraph value. -/
def parseSqlToGraph (sql : String) : SqlGraph :=
  { tables := (resolvedOf sql).foldl
      (fun ts r => updateLastNamed ts r.fromTable (markFkCol r)) (tables1Of sql),
    relations := resolvedOf sql,
    enums := enumsOf sql }

/-!
## Orthogonal edge router

Points and rectangle coordinates are exact rationals.  They are represented
by a gcd-normalized numerator-denominator pair with fully computable
operations, so that concrete router runs evaluate inside the kernel; every
arithmetic operation normalizes, hence structural equality of values is
equality of the represented rationals.  The flat interleaved point arrays
of the source are modelled as lists of points, with every source index
operation landing on a pair boundary.
-/

/-- An exact rational: integer numerator over natural denominator. -/
structure Q where
  num : ℤ
  den : ℕ
deriving DecidableEq, Repr

/-- Normalization: positive denominator, coprime pair; a zero denominator
maps to zero. -/
def normQ (n d : ℤ) : Q :=
  if d = 0 then ⟨0, 1⟩
  else
    let n2 := if d < 0 then -n else n
    let d2 := d.natAbs
    let g := Nat.gcd n2.natAbs d2
    ⟨n2 / (g : ℤ), d2 / g⟩

def Q.add (a b : Q) : Q := normQ (a.num * b.den + b.num * a.den) (a.den * b.den)

def Q.sub (a b : Q) : Q := normQ (a.num * b.den - b.num * a.den) (a.den * b.den)

def Q.mul (a b : Q) : Q := normQ (a.num * b.num) (a.den * b.den)

def Q.div (a b : Q) : Q := normQ (a.num * b.den) (a.den * b.num)

def Q.neg (a : Q) : Q := ⟨-a.num, a.den⟩

instance : Add Q := ⟨Q.add⟩

instance : Sub Q := ⟨Q.sub⟩

instance : Mul Q := ⟨Q.mul⟩

instance : Div Q := ⟨Q.div⟩

instance : Neg Q := ⟨Q.neg⟩

instance (n : Nat) : OfNat Q n := ⟨⟨n, 1⟩⟩

/-- Boolean less-or-equal on rationals (cross multiplication; denominators
are nonnegative by construction). -/
def Q.leB (a b : Q) : Bool := decide (a.num * b.den ≤ b.num * a.den)

/-- Boolean strict less-than on rationals. -/
def Q.ltB (a b : Q) : Bool := decide (a.num * b.den < b.num * a.den)

/-- JS Math.min on two values. -/
def Q.minQ (a b : Q) : Q := if Q.leB a b then a else b

/-- JS Math.max on two values. -/
def Q.maxQ (a b : Q) : Q := if Q.leB a b then b else a

/-- Math.abs. -/
def Q.absQ (a : Q) : Q := ⟨(a.num.natAbs : ℤ), a.den⟩

/-- Mathematical floor (floor division of numerator by denominator). -/
def Q.floorQ (a : Q) : ℤ := a.num.fdiv a.den

/-- Embed an integer. -/
def Q.ofI (n : ℤ) : Q := ⟨n, 1⟩

/-- A router point: exact world coordinates. -/
abbrev Pt := Q × Q

/-- Source AARect. -/
structure AARect where
  x : Q
  y : Q
  w : Q
  h : Q
deriving DecidableEq, Repr

/-- Source ROUTE_GRID. -/
def ROUTE_GRID : Q := 24

/-- Source ROUTE_PAD. -/
def ROUTE_PAD : Q := 260

/-- Source ROUTE_MAX_ITERS. -/
def ROUTE_MAX_ITERS : Nat := 40000

/-- Source inflateRect. -/
def inflateRect (r : AARect) (pad : Q) : AARect :=
  { x := r.x - pad, y := r.y - pad, w := r.w + pad * 2, h := r.h + pad * 2 }

/-- Source pointInRect (inclusive bounds). -/
def pointInRect (x y : Q) (r : AARect) : Bool :=
  Q.leB r.x x && Q.leB x (r.x + r.w) && Q.leB r.y y && Q.leB y (r.y + r.h)

/-- Source isBlocked. -/
def isBlocked (x y : Q) (obstacles : List AARect) : Bool :=
  obstacles.any (fun r => pointInRect x y r)

/-- JS Math.round (round half toward positive infinity). -/
def jsRound (q : Q) : ℤ := Q.floorQ (q + Q.ofI 1 / Q.ofI 2)

/-- Source snap. -/
def snap (v step : Q) : Q := Q.ofI (jsRound (v / step)) * step

/-- The collinearity test of compressOrthogonal. -/
def collinearMerge (o2 o p : Pt) : Bool :=
  (decide (o2.1 = o.1) && decide (o.1 = p.1)) || (decide (o2.2 = o.2) && decide (o.2 = p.2))

/-- The loop of compressOrthogonal; out holds the kept points reversed. -/
def cgo : List Pt → List Pt → List Pt
  | out, [] => out.reverse
  | out, p :: rest =>
    match out with
    | [] => cgo [p] rest
    | o :: outTail =>
      if p = o then cgo (o :: outTail) rest
      else
        match outTail with
        | [] => cgo (p :: o :: outTail) rest
        | o2 :: _ =>
          if collinearMerge o2 o p then cgo (p :: outTail) rest
          else cgo (p :: o :: outTail) rest

/-- Source compressOrthogonal: drop repeated points and merge collinear runs;
lists of at most two points are returned unchanged. -/
def compressOrthogonal (pts : List Pt) : List Pt :=
  if pts.length ≤ 2 then pts
  else
    match pts with
    | [] => pts
    | p0 :: rest => cgo [p0] rest

/-- A pair differing in both coordinates (the diagonal test of
enforceRightAngleEndpoints). -/
def diagPair (a b : Pt) : Bool := decide (a.1 ≠ b.1) && decide (a.2 ≠ b.2)

/-- The end-side corner insertion of enforceRightAngleEndpoints. -/
def insertEndCorner (l : List Pt) : List Pt :=
  match l.reverse with
  | e :: p :: rr => if diagPair e p then (e :: (p.1, e.2) :: p :: rr).reverse else l
  | _ => l

/-- Source enforceRightAngleEndpoints: insert an axis corner after the start
and before the end when the first or last segment is diagonal, then
recompress; lists of fewer than four points are returned unchanged. -/
def enforceRightAngleEndpoints (pts : List Pt) : List Pt :=
  if pts.length < 4 then pts
  else
    match pts with
    | s :: n :: rest =>
      compressOrthogonal
        (insertEndCorner (if diagPair s n then s :: (n.1, s.2) :: n :: rest else s :: n :: rest))
    | _ => pts

/-- Source manhattan distance. -/
def manhattanQ (a b : Pt) : Q := Q.absQ (a.1 - b.1) + Q.absQ (a.2 - b.2)

/-- The search window of routeManhattanAStar. -/
structure Bounds where
  minX : Q
  minY : Q
  maxX : Q
  maxY : Q
deriving DecidableEq, Repr

/-- The bounding window of start, goal and obstacles expanded by ROUTE_PAD. -/
def routeBounds (s g : Pt) (obstacles : List AARect) : Bounds :=
  { minX := (obstacles.foldl (fun a r => Q.minQ a r.x) (Q.minQ s.1 g.1)) - ROUTE_PAD,
    minY := (obstacles.foldl (fun a r => Q.minQ a r.y) (Q.minQ s.2 g.2)) - ROUTE_PAD,
    maxX := (obstacles.foldl (fun a r => Q.maxQ a (r.x + r.w)) (Q.maxQ s.1 g.1)) + ROUTE_PAD,
    maxY := (obstacles.foldl (fun a r => Q.maxQ a (r.y + r.h)) (Q.maxQ s.2 g.2)) + ROUTE_PAD }

/-- Source inBounds. -/
def inBoundsB (b : Bounds) (c : Pt) : Bool :=
  Q.leB b.minX c.1 && Q.leB c.1 b.maxX && Q.leB b.minY c.2 && Q.leB c.2 b.maxY

/-- The six candidate offset cells of nudgeOut, in source preference order. -/
def nudgeCandidates (c : Pt) (step : Q) : List Pt :=
  [(c.1 + step, c.2), (c.1 - step, c.2), (c.1, c.2 + step), (c.1, c.2 - step),
   (c.1 + step * 2, c.2), (c.1 - step * 2, c.2)]

/-- Source nudgeOut: an unblocked cell is kept; a blocked cell is replaced by
the first in-bounds unblocked candidate, or kept when none qualifies. -/
def nudgeOut (b : Bounds) (obstacles : List AARect) (step : Q) (c : Pt) : Pt :=
  if isBlocked c.1 c.2 obstacles then
    match (nudgeCandidates c step).find?
        (fun k => inBoundsB b k && !isBlocked k.1 k.2 obstacles) with
    | some k => k
    | none => c
  else c

/-- Keyed lookup in an association list (the string-keyed JS Map; the key
string of a cell determines the cell, so cells key the model directly). -/
def aget {α : Type} (m : List (Pt × α)) (k : Pt) : Option α :=
  (m.find? (fun e => decide (e.1 = k))).map (fun e => e.2)

/-- Keyed overwrite-or-append in an association list (JS Map.set). -/
def aset {α : Type} (m : List (Pt × α)) (k : Pt) (v : α) : List (Pt × α) :=
  if m.any (fun e => decide (e.1 = k)) then
    m.map (fun e => if e.1 = k then (k, v) else e)
  else m ++ [(k, v)]

/-- Comparison of f-scores where a missing score is positive infinity. -/
def fLt : Option Q → Option Q → Bool
  | none, _ => false
  | some _, none => true
  | some a, some b => Q.ltB a b

/-- The linear best-candidate scan of the open list (stable lowest-f). -/
def bestIndexGo (f : List (Pt × Q)) : List Pt → Nat → Nat → Option Q → Nat
  | [], _, best, _ => best
  | c :: r, i, best, bestF =>
    let fc := aget f c
    if fLt fc bestF then bestIndexGo f r (i + 1) i fc
    else bestIndexGo f r (i + 1) best bestF

/-- Source bestIndex. -/
def bestIndex (openL : List Pt) (f : List (Pt × Q)) : Nat :=
  bestIndexGo f openL 0 0 none

/-- The four axis neighbors, in source order. -/
def neighborsOf (c : Pt) (step : Q) : List Pt :=
  [(c.1 + step, c.2), (c.1 - step, c.2), (c.1, c.2 + step), (c.1, c.2 - step)]

/-- The A* loop state: open list and the three keyed maps. -/
structure AState where
  openL : List Pt
  came : List (Pt × Pt)
  g : List (Pt × Q)
  f : List (Pt × Q)
deriving Repr

/-- Relaxation of one neighbor (the inner for-loop body of the search). -/
def relaxNb (bnds : Bounds) (obstacles : List AARect) (goal : Pt) (current : Pt)
    (st : AState) (nb : Pt) : AState :=
  if !inBoundsB bnds nb then st
  else if isBlocked nb.1 nb.2 obstacles then st
  else
    match aget st.g current with
    | none => st
    | some gc =>
      let t := gc + 1
      let better :=
        match aget st.g nb with
        | none => true
        | some gn => Q.ltB t gn
      if better then
        { openL := if st.openL.any (fun o => decide (o = nb)) then st.openL
                   else st.openL ++ [nb],
          came := aset st.came nb current,
          g := aset st.g nb t,
          f := aset st.f nb (t + manhattanQ nb goal) }
      else st

/-- Parent-link backtracking of the goal expansion; the source while-loop is
given fuel one beyond the map size, which covers every acyclic chain. -/
def backtrackGo (came : List (Pt × Pt)) : Nat → Pt → List Pt → List Pt
  | 0, _, acc => acc
  | fuel + 1, k, acc =>
    match aget came k with
    | some prev => backtrackGo came fuel prev (prev :: acc)
    | none => acc

/-- Overwrite the first point (the exact-endpoint substitution writes the
start world coordinates into index zero). -/
def setHeadP (l : List Pt) (v : Pt) : List Pt :=
  match l with
  | [] => []
  | _ :: t => v :: t

/-- Overwrite the last point. -/
def setLastP : List Pt → Pt → List Pt
  | [], _ => []
  | [_], v => [v]
  | a :: b :: t, v => a :: setLastP (b :: t) v

/-- The exact-endpoint substitution: first the start coordinates, then the
end coordinates (which overwrite it again on a one-point path). -/
def substEnds (sw ew : Pt) (path : List Pt) : List Pt := setLastP (setHeadP path sw) ew

/-- The main A* loop: pick the open cell of least f-score, stop at the goal
with the reconstructed, substituted and compressed path, or relax the four
neighbors; returns the result together with the number of iterations run. -/
def astarLoop (sw ew goal : Pt) (obstacles : List AARect) (step : Q) (bnds : Bounds) :
    Nat → AState → Option (List Pt) × Nat
  | 0, _ => (none, 0)
  | fuel + 1, st =>
    match st.openL with
    | [] => (none, 0)
    | _ :: _ =>
      let idx := bestIndex st.openL st.f
      let current := st.openL.getD idx (0, 0)
      let openRest := st.openL.eraseIdx idx
      if current = goal then
        let path := backtrackGo st.came (st.came.length + 1) current [current]
        (some (compressOrthogonal (substEnds sw ew path)), 1)
      else
        let st2 := (neighborsOf current step).foldl
          (relaxNb bnds obstacles goal current) { st with openL := openRest }
        let rk := astarLoop sw ew goal obstacles step bnds fuel st2
        (rk.1, rk.2 + 1)

/-- The snapped start and goal points with the search window (shared by the
nudge of both endpoints). -/
def routeSetup (startWorld endWorld : Pt) (obstacles : List AARect) (step : Q) :
    Pt × Pt × Bounds :=
  let start : Pt := (snap startWorld.1 step, snap startWorld.2 step)
  let goal : Pt := (snap endWorld.1 step, snap endWorld.2 step)
  (start, goal, routeBounds start goal obstacles)

/-- The cell the search actually starts from: the snapped start, nudged. -/
def routeStartCell (startWorld endWorld : Pt) (obstacles : List AARect) (step : Q) : Pt :=
  let su := routeSetup startWorld endWorld obstacles step
  nudgeOut su.2.2 obstacles step su.1

/-- The goal cell the search targets: the snapped goal, nudged. -/
def routeGoalCell (startWorld endWorld : Pt) (obstacles : List AARect) (step : Q) : Pt :=
  let su := routeSetup startWorld endWorld obstacles step
  nudgeOut su.2.2 obstacles step su.2.1

/-- Source routeManhattanAStar, exposing the iteration count: snap and nudge
the endpoints, seed the maps, run the capped loop. -/
def routeInner (startWorld endWorld : Pt) (obstacles : List AARect) (step : Q) :
    Option (List Pt) × Nat :=
  let su := routeSetup startWorld endWorld obstacles step
  let s := routeStartCell startWorld endWorld obstacles step
  let g := routeGoalCell startWorld endWorld obstacles step
  astarLoop startWorld endWorld g obstacles step su.2.2 ROUTE_MAX_ITERS
    { openL := [s], came := [], g := [(s, 0)], f := [(s, manhattanQ s g)] }

/-- Source routeManhattanAStar. -/
def routeManhattanAStar (startWorld endWorld : Pt) (obstacles : List AARect) (step : Q) :
    Option (List Pt) :=
  (routeInner startWorld endWorld obstacles step).1

/-- The number of main-loop iterations the search ran. -/
def routeIters (startWorld endWorld : Pt) (obstacles : List AARect) (step : Q) : Nat :=
  (routeInner startWorld endWorld obstacles step).2

/-- The fixed three-segment fallback path of edgePaths, already compressed as
in the source. -/
def fallbackPts (sw ew : Pt) : List Pt :=
  compressOrthogonal [sw, ((sw.1 + ew.1) / 2, sw.2), ((sw.1 + ew.1) / 2, ew.2), ew]

/-- The per-edge point list of edgePaths: the A* route or the fallback,
followed by right-angle endpoint enforcement. -/
def edgeRoutePts (sw ew : Pt) (obstacles : List AARect) (step : Q) : List Pt :=
  enforceRightAngleEndpoints
    (match routeManhattanAStar sw ew obstacles step with
     | some pts => pts
     | none => fallbackPts sw ew)

/-!
## Verification of the claims
-/

/-- The end-to-end example input of the specification. -/
def exampleSql : String :=
  "create table a(id bigint primary key); create table b(id bigint primary key, a_id bigint references a(id));"

/-- Claim C1: on the two-table example input the extractor returns exactly the
tables a and b and exactly one relation, from b.a_id to a.id. -/
theorem claim_c1 :
    (parseSqlToGraph exampleSql).tables.map (fun t => t.name) = ["a", "b"] ∧
    (parseSqlToGraph exampleSql).relations.map
        (fun r => (r.fromTable, r.fromColumn, r.toTable, r.toColumn))
      = [("b", "a_id", "a", "id")] := by decide

/-- Claim C7: the enum definition with a doubled single quote yields one enum
named t with the unescaped value list. -/
theorem claim_c7 :
    (parseSqlToGraph "CREATE TYPE t AS ENUM(\x27a\x27\x27b\x27,\x27c\x27)").enums
      = [{ name := "t", values := ["a\x27b", "c"] }] := by decide

/-- Claim C8: the extractor is total by construction (a Lean function on all
of String), and on empty or entirely invalid input, including a truncated
create-table fragment, it returns the empty graph with no partial table,
enum, index or relation. -/
theorem claim_c8 :
    parseSqlToGraph "" = { tables := [], relations := [], enums := [] } ∧
    parseSqlToGraph "complete (((garbage \x27 -- junk" = { tables := [], relations := [], enums := [] } ∧
    parseSqlToGraph "create table broken" = { tables := [], relations := [], enums := [] } := by
  refine ⟨by decide, by decide, by decide⟩

/-- The A* main loop runs at most as many iterations as its fuel. -/
theorem astarLoop_iters_le (sw ew goal : Pt) (obs : List AARect) (step : Q) (bnds : Bounds) :
    ∀ fuel st, (astarLoop sw ew goal obs step bnds fuel st).2 ≤ fuel := by
  intro fuel
  induction fuel with
  | zero => intro st; simp [astarLoop]
  | succ n ih =>
    intro st
    unfold astarLoop
    cases h : st.openL with
    | nil => simp
    | cons a as =>
      simp only
      split
      · simp
      · simpa using Nat.succ_le_succ (ih _)

/-- Claim C5: for every start, end, obstacle set and grid step the search
terminates, running at most ROUTE_MAX_ITERS main-loop iterations, after
which it returns either a path or null. -/
theorem claim_c5 (sw ew : Pt) (obs : List AARect) (step : Q) :
    routeIters sw ew obs step ≤ ROUTE_MAX_ITERS ∧
    ((∃ pts, routeManhattanAStar sw ew obs step = some pts) ∨
      routeManhattanAStar sw ew obs step = none) := by
  constructor
  · unfold routeIters routeInner
    exact astarLoop_iters_le _ _ _ _ _ _ _ _
  · cases h : routeManhattanAStar sw ew obs step with
    | none => exact Or.inr rfl
    | some l => exact Or.inl ⟨l, rfl⟩

/-- Claim C9, counterexample: when the obstacle covers the snapped start cell
and all six candidate offsets, the cell the search starts from is still
inside the obstacle, refuting that routing can never originate inside a
wall. -/
theorem claim_c9_counterexample :
    isBlocked (routeStartCell (0, 0) (240, 0) [⟨-48, -24, 96, 48⟩] 24).1
        (routeStartCell (0, 0) (240, 0) [⟨-48, -24, 96, 48⟩] 24).2
        [⟨-48, -24, 96, 48⟩] = true := by decide

/-- Claim C9, amended: the six candidates are tried in their fixed order and
whenever at least one candidate is in-bounds and unblocked (or the cell
itself is free), the resulting cell is not inside an obstacle; only when
every candidate fails is the original blocked cell kept. -/
theorem claim_c9_amended (b : Bounds) (obs : List AARect) (step : Q) (c : Pt)
    (h : ∃ k ∈ nudgeCandidates c step, inBoundsB b k = true ∧ isBlocked k.1 k.2 obs = false) :
    isBlocked (nudgeOut b obs step c).1 (nudgeOut b obs step c).2 obs = false := by
  unfold nudgeOut
  by_cases hb : isBlocked c.1 c.2 obs = true
  · simp only [hb, if_true]
    have hex : ∃ k ∈ nudgeCandidates c step,
        (inBoundsB b k && !isBlocked k.1 k.2 obs) = true := by
      obtain ⟨k, hk, h1, h2⟩ := h
      exact ⟨k, hk, by simp [h1, h2]⟩
    have hs : ((nudgeCandidates c step).find?
        (fun k => inBoundsB b k && !isBlocked k.1 k.2 obs)).isSome = true :=
      List.find?_isSome.mpr hex
    obtain ⟨k0, hk0⟩ := Option.isSome_iff_exists.mp hs
    rw [hk0]
    have := List.find?_some hk0
    rw [Bool.and_eq_true] at this
    simpa using this.2
  · simp only [Bool.not_eq_true] at hb
    simp [hb]

/-- Witness for the amended claim C9 at a concrete blocked cell whose first
candidate offset is free. -/
theorem claim_c9_witness :
    isBlocked
      (nudgeOut (routeBounds (0, 0) (240, 0) [⟨-20, -20, 30, 30⟩]) [⟨-20, -20, 30, 30⟩] 24 (0, 0)).1
      (nudgeOut (routeBounds (0, 0) (240, 0) [⟨-20, -20, 30, 30⟩]) [⟨-20, -20, 30, 30⟩] 24 (0, 0)).2
      [⟨-20, -20, 30, 30⟩] = false :=
  claim_c9_amended _ _ _ _ (by decide)

/-- updateLastNamed preserves the name list when the update preserves names. -/
theorem updateLastNamed_map_name (ts : List SqlTable) (nm : String) (f : SqlTable → SqlTable)
    (hf : ∀ t, (f t).name = t.name) :
    (updateLastNamed ts nm f).map (fun t => t.name) = ts.map (fun t => t.name) := by
  induction ts with
  | nil => rfl
  | cons t ts ih =>
    unfold updateLastNamed
    split
    · simp [ih]
    · split
      · simp [hf]
      · simp [ih]

/-- Folded updateLastNamed steps preserve the name list. -/
theorem foldl_updateLast_map_name {β : Type} (key : β → String) (g : β → SqlTable → SqlTable)
    (hg : ∀ b t, (g b t).name = t.name) (rs : List β) :
    ∀ ts : List SqlTable,
      (rs.foldl (fun ts b => updateLastNamed ts (key b) (g b)) ts).map (fun t => t.name)
        = ts.map (fun t => t.name) := by
  induction rs with
  | nil => intro ts; rfl
  | cons b rs ih =>
    intro ts
    simp only [List.foldl_cons]
    rw [ih, updateLastNamed_map_name _ _ _ (hg b)]

/-- A positive hasNamed test yields a member table of that name. -/
theorem exists_of_hasNamed (ts : List SqlTable) (nm : String) (h : hasNamed ts nm = true) :
    ∃ t ∈ ts, t.name = nm := by
  simpa [hasNamed, List.any_eq_true] using h

/-- Membership of a name transfers along an equality of name lists. -/
theorem exists_name_of_map_eq {ts ts2 : List SqlTable} {nm : String}
    (h : ts.map (fun t => t.name) = ts2.map (fun t => t.name))
    (he : ∃ t ∈ ts, t.name = nm) : ∃ t ∈ ts2, t.name = nm := by
  obtain ⟨t, ht, hn⟩ := he
  have : nm ∈ ts2.map (fun t => t.name) := by
    rw [← h]
    exact List.mem_map.mpr ⟨t, ht, hn⟩
  obtain ⟨t2, ht2, hn2⟩ := List.mem_map.mp this
  exact ⟨t2, ht2, hn2⟩

/-- The names of the final tables equal the names of the attach-stage tables. -/
theorem finalTables_map_name (sql : String) :
    (parseSqlToGraph sql).tables.map (fun t => t.name)
      = (tables1Of sql).map (fun t => t.name) := by
  unfold parseSqlToGraph
  exact foldl_updateLast_map_name (fun r => r.fromTable) markFkCol (fun r t => rfl) _ _

/-- Claim C2: every relation of the output names a source and a target table
that both exist in the output table list; the final filter drops every
captured reference whose table is unknown. -/
theorem claim_c2 (sql : String) (r : SqlRelation)
    (hr : r ∈ (parseSqlToGraph sql).relations) :
    (∃ t ∈ (parseSqlToGraph sql).tables, t.name = r.fromTable) ∧
    (∃ t ∈ (parseSqlToGraph sql).tables, t.name = r.toTable) := by
  have hr2 : r ∈ resolvedOf sql := hr
  unfold resolvedOf at hr2
  have hp := (List.mem_filter.mp hr2).2
  rw [Bool.and_eq_true] at hp
  have hnames := finalTables_map_name sql
  exact ⟨exists_name_of_map_eq hnames.symm (exists_of_hasNamed _ _ hp.1),
         exists_name_of_map_eq hnames.symm (exists_of_hasNamed _ _ hp.2)⟩

/-- Witness for claim C2 on the two-table example relation. -/
theorem claim_c2_witness :
    (∃ t ∈ (parseSqlToGraph exampleSql).tables, t.name = "b") ∧
    (∃ t ∈ (parseSqlToGraph exampleSql).tables, t.name = "a") :=
  claim_c2 exampleSql
    { id := "b.a_id->a.id", fromTable := "b", fromColumn := "a_id",
      toTable := "a", toColumn := "id" }
    (by decide)

/-- The primary-key-implies-not-null predicate on one column. -/
def ColOK (c : SqlColumn) : Prop := c.isPrimaryKey = true → c.isNotNull = true

/-- Item classification preserves the column invariant: a new column is built
with isNotNull set from isPrimaryKey disjoined with the not-null test. -/
theorem processItem_colOK (en : List String) (tn : String)
    (st : List SqlColumn × List SqlRelation) (item : Str)
    (h : ∀ c ∈ st.1, ColOK c) :
    ∀ c ∈ (processItem en tn st item).1, ColOK c := by
  intro c hc
  unfold processItem at hc
  dsimp only at hc
  split at hc
  · exact h c hc
  · split at hc
    · exact h c hc
    · split at hc
      · exact h c hc
      · split at hc
        · exact h c hc
        · split at hc
          · exact h c hc
          · split at hc
            · exact h c hc
            · rcases List.mem_append.mp hc with hold | hnew
              · exact h c hold
              · have hc2 := List.mem_singleton.mp hnew
                subst hc2
                intro hpk
                simp only at hpk ⊢
                rw [hpk]
                simp

/-- The item fold preserves the column invariant. -/
theorem foldl_processItem_colOK (en : List String) (tn : String) (items : List Str) :
    ∀ st, (∀ c ∈ st.1, ColOK c) →
      ∀ c ∈ (items.foldl (processItem en tn) st).1, ColOK c := by
  induction items with
  | nil => intro st h; exact h
  | cons it items ih =>
    intro st h
    simp only [List.foldl_cons]
    exact ih _ (processItem_colOK en tn st it h)

/-- Every built column satisfies the invariant. -/
theorem buildTable_colOK (en : List String) (blk : Str × Str) :
    ∀ c ∈ (buildTable en blk).1.columns, ColOK c := by
  unfold buildTable
  simpa using foldl_processItem_colOK en ⟨blk.1⟩ (splitTopLevelComma blk.2) ([], [])
    (by intro c hc; cases hc)

/-- updateLastNamed preserves any per-table predicate preserved by the update. -/
theorem updateLastNamed_pres (P : SqlTable → Prop) (ts : List SqlTable) (nm : String)
    (f : SqlTable → SqlTable) (hf : ∀ t, P t → P (f t)) (h : ∀ t ∈ ts, P t) :
    ∀ t ∈ updateLastNamed ts nm f, P t := by
  induction ts with
  | nil => intro t ht; cases ht
  | cons t ts ih =>
    unfold updateLastNamed
    split
    · intro u hu
      rcases List.mem_cons.mp hu with h1 | h2
      · exact h1 ▸ h t (List.mem_cons_self _ _)
      · exact ih (fun v hv => h v (List.mem_cons_of_mem _ hv)) u h2
    · split
      · intro u hu
        rcases List.mem_cons.mp hu with h1 | h2
        · exact h1 ▸ hf t (h t (List.mem_cons_self _ _))
        · exact h u (List.mem_cons_of_mem _ h2)
      · intro u hu
        rcases List.mem_cons.mp hu with h1 | h2
        · exact h1 ▸ h t (List.mem_cons_self _ _)
        · exact ih (fun v hv => h v (List.mem_cons_of_mem _ hv)) u h2

/-- Folded updateLastNamed steps preserve any preserved per-table predicate. -/
theorem foldl_updateLast_pres {β : Type} (P : SqlTable → Prop) (key : β → String)
    (g : β → SqlTable → SqlTable) (hg : ∀ b t, P t → P (g b t)) (rs : List β) :
    ∀ ts : List SqlTable, (∀ t ∈ ts, P t) →
      ∀ t ∈ rs.foldl (fun ts b => updateLastNamed ts (key b) (g b)) ts, P t := by
  induction rs with
  | nil => intro ts h; exact h
  | cons b rs ih =>
    intro ts h
    simp only [List.foldl_cons]
    exact ih _ (updateLastNamed_pres P ts (key b) (g b) (hg b) h)

/-- updateFirstCol preserves any per-column predicate preserved by the update. -/
theorem updateFirstCol_pres (P : SqlColumn → Prop) (cs : List SqlColumn) (nm : String)
    (g : SqlColumn → SqlColumn) (hg : ∀ c, P c → P (g c)) (h : ∀ c ∈ cs, P c) :
    ∀ c ∈ updateFirstCol cs nm g, P c := by
  induction cs with
  | nil => intro c hc; cases hc
  | cons c cs ih =>
    unfold updateFirstCol
    split
    · intro u hu
      rcases List.mem_cons.mp hu with h1 | h2
      · exact h1 ▸ hg c (h c (List.mem_cons_self _ _))
      · exact h u (List.mem_cons_of_mem _ h2)
    · intro u hu
      rcases List.mem_cons.mp hu with h1 | h2
      · exact h1 ▸ h c (List.mem_cons_self _ _)
      · exact ih (fun v hv => h v (List.mem_cons_of_mem _ hv)) u h2

/-- The per-table form of the invariant. -/
def TblColOK (t : SqlTable) : Prop := ∀ c ∈ t.columns, ColOK c

/-- Claim C6: in every extracted table, a column flagged primary key is also
flagged not-null, and the flag survives index attachment and FK marking. -/
theorem claim_c6 (sql : String) (t : SqlTable) (c : SqlColumn)
    (ht : t ∈ (parseSqlToGraph sql).tables) (hc : c ∈ t.columns)
    (hpk : c.isPrimaryKey = true) : c.isNotNull = true := by
  have h0 : ∀ u ∈ tables0Of sql, TblColOK u := by
    intro u hu
    unfold tables0Of builtOf at hu
    obtain ⟨p, hp, hpu⟩ := List.mem_map.mp hu
    obtain ⟨blk, _, hblk⟩ := List.mem_map.mp hp
    intro cc hcc
    have := buildTable_colOK ((enumsOf sql).map (fun e => e.name)) blk
    rw [hblk] at this
    exact this cc (hpu ▸ hcc)
  have h1 : ∀ u ∈ tables1Of sql, TblColOK u := by
    unfold tables1Of
    exact foldl_updateLast_pres TblColOK (fun idx => idx.table)
      (fun idx t => { t with indexes := t.indexes ++ [idx] })
      (by
        intro idx u hu cc hcc
        exact hu cc hcc)
      (indexesOf sql) (tables0Of sql) h0
  have h2 : ∀ u ∈ (parseSqlToGraph sql).tables, TblColOK u := by
    unfold parseSqlToGraph
    exact foldl_updateLast_pres TblColOK (fun r => r.fromTable) markFkCol
      (by
        intro r u hu
        unfold markFkCol
        intro cc hcc
        exact updateFirstCol_pres ColOK u.columns r.fromColumn _
          (by intro d hd hdp; exact hd hdp) hu cc hcc)
      (resolvedOf sql) (tables1Of sql) h1
  exact h2 t ht c hc hpk

/-- The single-table example of the C6 witness. -/
def c6Table : SqlTable :=
  { name := "a",
    columns := [{ name := "id", type := "bigint", isPrimaryKey := true, isNotNull := true,
                  isForeignKey := false, fkTo := none, isEnum := false, enumName := none }],
    indexes := [] }

/-- The primary-key column of the C6 witness table. -/
def c6Col : SqlColumn :=
  { name := "id", type := "bigint", isPrimaryKey := true, isNotNull := true,
    isForeignKey := false, fkTo := none, isEnum := false, enumName := none }

/-- Witness for claim C6 on a concrete parsed primary-key column. -/
theorem claim_c6_witness : c6Col.isNotNull = true :=
  claim_c6 "create table a(id bigint primary key);" c6Table c6Col (by decide) (by decide) rfl


/-- Lookup in an appended primary-key map entry of a different key. -/
theorem pkLookup_append_ne (m : List (String × String)) (tn nm x : String) (hne : tn ≠ nm) :
    pkLookup (m ++ [(tn, x)]) nm = pkLookup m nm := by
  unfold pkLookup
  induction m with
  | nil => simp [List.find?, hne]
  | cons e m ih =>
    by_cases he : e.1 = nm
    · simp [List.find?_cons, he]
    · simp only [List.cons_append, List.find?_cons, he, decide_False]
      exact ih

/-- Lookup of an appended entry over a map without that key. -/
theorem pkLookup_append_self (m : List (String × String)) (tn x : String)
    (h : pkLookup m tn = none) : pkLookup (m ++ [(tn, x)]) tn = some x := by
  unfold pkLookup at *
  induction m with
  | nil => simp [List.find?]
  | cons e m ih =>
    by_cases he : e.1 = tn
    · simp [List.find?_cons, he] at h
    · simp only [List.find?_cons, he, decide_False] at h
      simp only [List.cons_append, List.find?_cons, he, decide_False]
      exact ih h

/-- A missing key is exactly a negative membership test. -/
theorem pkLookup_none_iff_any (m : List (String × String)) (tn : String) :
    pkLookup m tn = none ↔ m.any (fun p => p.1 = tn) = false := by
  unfold pkLookup
  induction m with
  | nil => simp
  | cons e m ih =>
    by_cases he : e.1 = tn
    · simp [List.find?_cons, he]
    · simp only [List.find?_cons, he, decide_False, List.any_cons, Bool.false_or]
      exact ih

/-- pkInsertCols keyed by another table name leaves a lookup unchanged. -/
theorem pkInsertCols_lookup_ne (tn nm : String) (hne : tn ≠ nm) (cols : List SqlColumn) :
    ∀ m, pkLookup (pkInsertCols tn m cols) nm = pkLookup m nm := by
  induction cols with
  | nil => intro m; rfl
  | cons c cols ih =>
    intro m
    unfold pkInsertCols
    simp only [List.foldl_cons]
    have step : pkInsertCols tn
        (if c.isPrimaryKey && !(m.any (fun p => p.1 = tn)) then m ++ [(tn, c.name)] else m)
        cols
        = List.foldl (fun m c =>
            if c.isPrimaryKey && !(m.any (fun p => p.1 = tn)) then m ++ [(tn, c.name)] else m)
          (if c.isPrimaryKey && !(m.any (fun p => p.1 = tn)) then m ++ [(tn, c.name)] else m)
          cols := rfl
    rw [← step, ih]
    split
    · exact pkLookup_append_ne m tn nm _ hne
    · rfl

/-- pkInsertCols over a map already holding the key is the identity. -/
theorem pkInsertCols_id_of_mem (tn : String) (cols : List SqlColumn) :
    ∀ m, m.any (fun p => p.1 = tn) = true → pkInsertCols tn m cols = m := by
  induction cols with
  | nil => intro m _; rfl
  | cons c cols ih =>
    intro m hm
    unfold pkInsertCols
    simp only [List.foldl_cons, hm, Bool.not_true, Bool.and_false, Bool.false_eq_true,
      if_false]
    exact ih m hm

/-- pkInsertCols over a map without the key records the first primary-key
column of the list. -/
theorem pkInsertCols_lookup_self (tn : String) (cols : List SqlColumn) :
    ∀ m, pkLookup m tn = none →
      pkLookup (pkInsertCols tn m cols) tn
        = (cols.find? (fun c => c.isPrimaryKey)).map (fun c => c.name) := by
  induction cols with
  | nil => intro m h; simpa using h
  | cons c cols ih =>
    intro m h
    have hany : m.any (fun p => p.1 = tn) = false := (pkLookup_none_iff_any m tn).mp h
    unfold pkInsertCols
    simp only [List.foldl_cons, hany, Bool.not_false, Bool.and_true]
    cases hpk : c.isPrimaryKey with
    | false =>
      simp only [Bool.false_eq_true, if_false, List.find?_cons, hpk]
      exact ih m h
    | true =>
      simp only [if_true, List.find?_cons, hpk]
      have hm2 : (m ++ [(tn, c.name)]).any (fun p => p.1 = tn) = true := by
        simp
      show pkLookup (pkInsertCols tn (m ++ [(tn, c.name)]) cols) tn
        = Option.map (fun c => c.name) (some c)
      rw [pkInsertCols_id_of_mem tn cols _ hm2]
      simpa using pkLookup_append_self m tn c.name h

/-- Folding tables whose names all differ from nm leaves a lookup unchanged. -/
theorem buildPkMap_fold_ne (nm : String) (ts : List SqlTable)
    (h : ∀ u ∈ ts, u.name ≠ nm) :
    ∀ m, pkLookup (ts.foldl (fun m t => pkInsertCols t.name m t.columns) m) nm
      = pkLookup m nm := by
  induction ts with
  | nil => intro m; rfl
  | cons t ts ih =>
    intro m
    simp only [List.foldl_cons]
    rw [ih (fun u hu => h u (List.mem_cons_of_mem _ hu))]
    exact pkInsertCols_lookup_ne t.name nm (h t (List.mem_cons_self _ _)) t.columns m

/-- Accumulator-general form of the pkByTable characterization. -/
theorem buildPkMap_fold_lookup (t : SqlTable) :
    ∀ (ts : List SqlTable) (m : List (String × String)),
      t ∈ ts → (ts.map (fun u => u.name)).Nodup → pkLookup m t.name = none →
      pkLookup (ts.foldl (fun m v => pkInsertCols v.name m v.columns) m) t.name
        = (t.columns.find? (fun c => c.isPrimaryKey)).map (fun c => c.name) := by
  intro ts
  induction ts with
  | nil => intro m hm; cases hm
  | cons v ts ih =>
    intro m hmem hnd hm
    simp only [List.map_cons, List.nodup_cons] at hnd
    rcases List.mem_cons.mp hmem with heq | hmem2
    · subst heq
      simp only [List.foldl_cons]
      have hne : ∀ w ∈ ts, w.name ≠ t.name := fun w hw hwn =>
        hnd.1 (hwn ▸ List.mem_map.mpr ⟨w, hw, rfl⟩)
      rw [buildPkMap_fold_ne t.name ts hne]
      exact pkInsertCols_lookup_self t.name t.columns m hm
    · simp only [List.foldl_cons]
      have hvne : v.name ≠ t.name := fun he =>
        hnd.1 (he ▸ List.mem_map.mpr ⟨t, hmem2, rfl⟩)
      exact ih _ hmem2 hnd.2
        (by rw [pkInsertCols_lookup_ne v.name t.name hvne]; exact hm)

/-- Characterization of the pkByTable map under distinct table names: the
lookup of a table name is the first primary-key column of that table. -/
theorem pkMap_lookup_of_nodup (ts : List SqlTable) (t : SqlTable)
    (hnd : (ts.map (fun u => u.name)).Nodup) (ht : t ∈ ts) :
    pkLookup (buildPkMap ts) t.name
      = (t.columns.find? (fun c => c.isPrimaryKey)).map (fun c => c.name) := by
  unfold buildPkMap
  exact buildPkMap_fold_lookup t ts [] ht hnd rfl

/-- Column similarity: name and primary-key flag preserved. -/
def colSim (c d : SqlColumn) : Prop := c.name = d.name ∧ c.isPrimaryKey = d.isPrimaryKey

/-- Table similarity: name preserved and columns pointwise similar. -/
def tblSim (t u : SqlTable) : Prop :=
  t.name = u.name ∧ List.Forall₂ colSim t.columns u.columns

theorem colSim_refl (c : SqlColumn) : colSim c c := ⟨rfl, rfl⟩

theorem forall₂_colSim_refl (cs : List SqlColumn) : List.Forall₂ colSim cs cs := by
  induction cs with
  | nil => exact List.Forall₂.nil
  | cons c cs ih => exact List.Forall₂.cons (colSim_refl c) ih

theorem tblSim_refl (t : SqlTable) : tblSim t t := ⟨rfl, forall₂_colSim_refl t.columns⟩

theorem forall₂_colSim_trans {a b c : List SqlColumn}
    (h1 : List.Forall₂ colSim a b) (h2 : List.Forall₂ colSim b c) :
    List.Forall₂ colSim a c := by
  induction h1 generalizing c with
  | nil => cases h2; exact List.Forall₂.nil
  | cons hxy hrest ih =>
    cases h2 with
    | cons hyz hrest2 =>
      exact List.Forall₂.cons ⟨hxy.1.trans hyz.1, hxy.2.trans hyz.2⟩ (ih hrest2)

theorem tblSim_trans {t u v : SqlTable} (h1 : tblSim t u) (h2 : tblSim u v) : tblSim t v :=
  ⟨h1.1.trans h2.1, forall₂_colSim_trans h1.2 h2.2⟩

theorem forall₂_tblSim_refl (ts : List SqlTable) : List.Forall₂ tblSim ts ts := by
  induction ts with
  | nil => exact List.Forall₂.nil
  | cons t ts ih => exact List.Forall₂.cons (tblSim_refl t) ih

theorem forall₂_tblSim_trans {a b c : List SqlTable}
    (h1 : List.Forall₂ tblSim a b) (h2 : List.Forall₂ tblSim b c) :
    List.Forall₂ tblSim a c := by
  induction h1 generalizing c with
  | nil => cases h2; exact List.Forall₂.nil
  | cons hxy hrest ih =>
    cases h2 with
    | cons hyz hrest2 => exact List.Forall₂.cons (tblSim_trans hxy hyz) (ih hrest2)

theorem updateFirstCol_sim (cs : List SqlColumn) (nm : String) (g : SqlColumn → SqlColumn)
    (hg : ∀ c, colSim c (g c)) : List.Forall₂ colSim cs (updateFirstCol cs nm g) := by
  induction cs with
  | nil => exact List.Forall₂.nil
  | cons c cs ih =>
    unfold updateFirstCol
    split
    · exact List.Forall₂.cons (hg c) (forall₂_colSim_refl cs)
    · exact List.Forall₂.cons (colSim_refl c) ih

theorem updateLastNamed_sim (ts : List SqlTable) (nm : String) (f : SqlTable → SqlTable)
    (hf : ∀ t, tblSim t (f t)) : List.Forall₂ tblSim ts (updateLastNamed ts nm f) := by
  induction ts with
  | nil => exact List.Forall₂.nil
  | cons t ts ih =>
    unfold updateLastNamed
    split
    · exact List.Forall₂.cons (tblSim_refl t) ih
    · split
      · exact List.Forall₂.cons (hf t) (forall₂_tblSim_refl ts)
      · exact List.Forall₂.cons (tblSim_refl t) ih

theorem foldl_updateLast_sim {β : Type} (key : β → String) (g : β → SqlTable → SqlTable)
    (hg : ∀ b t, tblSim t (g b t)) (rs : List β) :
    ∀ ts : List SqlTable,
      List.Forall₂ tblSim ts (rs.foldl (fun ts b => updateLastNamed ts (key b) (g b)) ts) := by
  induction rs with
  | nil => intro ts; exact forall₂_tblSim_refl ts
  | cons b rs ih =>
    intro ts
    simp only [List.foldl_cons]
    exact forall₂_tblSim_trans (updateLastNamed_sim ts (key b) (g b) (hg b)) (ih _)

/-- The final tables are pointwise similar to the pre-attachment tables. -/
theorem finalTables_sim (sql : String) :
    List.Forall₂ tblSim (tables0Of sql) (parseSqlToGraph sql).tables := by
  have h1 : List.Forall₂ tblSim (tables0Of sql) (tables1Of sql) := by
    unfold tables1Of
    exact foldl_updateLast_sim (fun idx => idx.table)
      (fun idx t => { t with indexes := t.indexes ++ [idx] })
      (fun idx t => ⟨rfl, forall₂_colSim_refl t.columns⟩) (indexesOf sql) (tables0Of sql)
  have h2 : List.Forall₂ tblSim (tables1Of sql) (parseSqlToGraph sql).tables := by
    unfold parseSqlToGraph
    exact foldl_updateLast_sim (fun r => r.fromTable) markFkCol
      (fun r t => ⟨rfl, updateFirstCol_sim t.columns r.fromColumn _
        (fun c => ⟨rfl, rfl⟩)⟩) (resolvedOf sql) (tables1Of sql)
  exact forall₂_tblSim_trans h1 h2

/-- A member of the right list of a Forall₂ has a related member on the left. -/
theorem forall₂_mem_right {α β : Type} {R : α → β → Prop} {as : List α} {bs : List β}
    (h : List.Forall₂ R as bs) {b : β} (hb : b ∈ bs) : ∃ a ∈ as, R a b := by
  induction h with
  | nil => cases hb
  | cons hr hrest ih =>
    rcases List.mem_cons.mp hb with heq | hmem
    · exact ⟨_, List.mem_cons_self _ _, heq ▸ hr⟩
    · obtain ⟨a, ha, har⟩ := ih hmem
      exact ⟨a, List.mem_cons_of_mem _ ha, har⟩

/-- Pointwise-similar column lists have the same first primary-key column
name. -/
theorem find?_pk_of_sim {cs ds : List SqlColumn} (h : List.Forall₂ colSim cs ds) :
    (cs.find? (fun c => c.isPrimaryKey)).map (fun c => c.name)
      = (ds.find? (fun c => c.isPrimaryKey)).map (fun c => c.name) := by
  induction h with
  | nil => rfl
  | cons hcd hrest ih =>
    rename_i c d cs2 ds2
    simp only [List.find?_cons]
    rw [← hcd.2]
    cases hpk : c.isPrimaryKey with
    | true => simp [hcd.1]
    | false => simpa using ih

/-- Claim C3: a raw relation with an omitted target column resolves to the
first primary-key column of the (unique) target table, defaulting to the
literal id when that table has none. -/
theorem claim_c3 (sql : String) (r : SqlRelation) (t : SqlTable)
    (_hr : r ∈ rawRelsOf sql) (hempty : r.toColumn = "")
    (ht : t ∈ (parseSqlToGraph sql).tables) (hname : t.name = r.toTable)
    (hnd : ((parseSqlToGraph sql).tables.map (fun u => u.name)).Nodup) :
    (resolveRel (pkMapOf sql) r).toColumn
      = ((t.columns.find? (fun c => c.isPrimaryKey)).map (fun c => c.name)).getD "id" := by
  have hres : (resolveRel (pkMapOf sql) r).toColumn
      = (pkLookup (pkMapOf sql) r.toTable).getD "id" := by
    unfold resolveRel
    simp only [hempty, ne_eq, not_true_eq_false, if_false]
    cases pkLookup (pkMapOf sql) r.toTable <;> rfl
  obtain ⟨t0, ht0, hsim⟩ := forall₂_mem_right (finalTables_sim sql) ht
  have hn0 : t0.name = r.toTable := hsim.1.trans hname
  have hnd0 : ((tables0Of sql).map (fun u => u.name)).Nodup := by
    have hmn : (tables0Of sql).map (fun u => u.name)
        = (parseSqlToGraph sql).tables.map (fun u => u.name) := by
      rw [finalTables_map_name sql]
      unfold tables1Of
      rw [foldl_updateLast_map_name (fun idx => idx.table)
        (fun idx t => { t with indexes := t.indexes ++ [idx] }) (fun idx t => rfl)]
    rw [hmn]
    exact hnd
  have hlook := pkMap_lookup_of_nodup (tables0Of sql) t0 hnd0 ht0
  rw [hn0] at hlook
  rw [hres]
  show (pkLookup (buildPkMap (tables0Of sql)) r.toTable).getD "id" = _
  rw [hlook, find?_pk_of_sim hsim.2]

def c3Sql : String :=
  "create table users(uid bigint primary key); create table posts(author bigint, foreign key (author) references users);"

def c3SqlB : String :=
  "create table logs(msg text); create table evt(ref bigint, foreign key (ref) references logs);"

def c3RawRel : SqlRelation :=
  { id := "posts.author->users.?", fromTable := "posts", fromColumn := "author",
    toTable := "users", toColumn := "" }

def c3Users : SqlTable :=
  { name := "users",
    columns := [{ name := "uid", type := "bigint", isPrimaryKey := true, isNotNull := true,
                  isForeignKey := false, fkTo := none, isEnum := false, enumName := none }],
    indexes := [] }

def c3RawRelB : SqlRelation :=
  { id := "evt.ref->logs.?", fromTable := "evt", fromColumn := "ref",
    toTable := "logs", toColumn := "" }

def c3Logs : SqlTable :=
  { name := "logs",
    columns := [{ name := "msg", type := "text", isPrimaryKey := false, isNotNull := false,
                  isForeignKey := false, fkTo := none, isEnum := false, enumName := none }],
    indexes := [] }

theorem claim_c3_witness :
    ((resolveRel (pkMapOf c3Sql) c3RawRel).toColumn
      = ((c3Users.columns.find? (fun c => c.isPrimaryKey)).map (fun c => c.name)).getD "id") ∧
    ((resolveRel (pkMapOf c3SqlB) c3RawRelB).toColumn
      = ((c3Logs.columns.find? (fun c => c.isPrimaryKey)).map (fun c => c.name)).getD "id") :=
  ⟨claim_c3 c3Sql c3RawRel c3Users (by decide) rfl (by decide) rfl (by decide),
   claim_c3 c3SqlB c3RawRelB c3Logs (by decide) rfl (by decide) rfl (by decide)⟩


/-!
Router path machinery: first and last point preservation through compression
and enforcement, and the axis-sharing structure of reconstructed A* paths.
-/

theorem cgo_head (inp : List Pt) : ∀ out : List Pt, out ≠ [] →
    (cgo out inp).head? = out.getLast? := by
  induction inp with
  | nil =>
    intro out h
    show (out.reverse).head? = out.getLast?
    exact List.head?_reverse out
  | cons p rest ih =>
    intro out h
    rcases out with _ | ⟨o, outTail⟩
    · cases h rfl
    · rcases outTail with _ | ⟨o2, t⟩
      · show (cgo [o] (p :: rest)).head? = [o].getLast?
        unfold cgo
        dsimp only
        split
        · exact ih [o] (by simp)
        · rw [ih [p, o] (by simp)]
          simp [List.getLast?_cons_cons]
      · show (cgo (o :: o2 :: t) (p :: rest)).head? = (o :: o2 :: t).getLast?
        unfold cgo
        dsimp only
        split
        · exact ih (o :: o2 :: t) (by simp)
        · split
          · rw [ih (p :: o2 :: t) (by simp)]
            simp [List.getLast?_cons_cons]
          · rw [ih (p :: o :: o2 :: t) (by simp)]
            simp [List.getLast?_cons_cons]

theorem cgo_last (inp : List Pt) : ∀ (o : Pt) (ot : List Pt),
    (cgo (o :: ot) inp).getLast? = some (inp.getLastD o) := by
  induction inp with
  | nil =>
    intro o ot
    show ((o :: ot).reverse).getLast? = _
    rw [List.getLast?_reverse]
    rfl
  | cons p rest ih =>
    intro o ot
    rcases ot with _ | ⟨o2, t⟩
    · show (cgo [o] (p :: rest)).getLast? = _
      unfold cgo
      dsimp only
      split
      · rename_i hpo
        rw [ih o []]
        cases rest with
        | nil => simp [List.getLastD, hpo]
        | cons q qs => simp [List.getLastD_cons]
      · rw [ih p [o], List.getLastD_cons]
    · show (cgo (o :: o2 :: t) (p :: rest)).getLast? = _
      unfold cgo
      dsimp only
      split
      · rename_i hpo
        rw [ih o (o2 :: t)]
        cases rest with
        | nil => simp [List.getLastD, hpo]
        | cons q qs => simp [List.getLastD_cons]
      · split
        · rw [ih p (o2 :: t), List.getLastD_cons]
        · rw [ih p (o :: o2 :: t), List.getLastD_cons]

theorem compress_head (l : List Pt) : (compressOrthogonal l).head? = l.head? := by
  unfold compressOrthogonal
  split
  · rfl
  · match l with
    | [] => rfl
    | p0 :: rest =>
      rw [cgo_head rest [p0] (by simp)]
      rfl

theorem getLast?_cons_eq_getLastD (a : Pt) (l : List Pt) :
    (a :: l).getLast? = some (l.getLastD a) := by
  induction l generalizing a with
  | nil => rfl
  | cons b t ih => rw [List.getLast?_cons_cons, ih b, List.getLastD_cons]

theorem compress_last (l : List Pt) : (compressOrthogonal l).getLast? = l.getLast? := by
  unfold compressOrthogonal
  split
  · rfl
  · match l with
    | [] => rfl
    | p0 :: rest =>
      rw [cgo_last rest p0 [], getLast?_cons_eq_getLastD]

theorem insertEndCorner_head (l : List Pt) : (insertEndCorner l).head? = l.head? := by
  unfold insertEndCorner
  split
  · rename_i e p rr heq
    split
    · rw [List.head?_reverse, ← List.getLast?_reverse l, heq]
      simp [List.getLast?_cons_cons]
    · rfl
  · rfl

theorem insertEndCorner_last (l : List Pt) : (insertEndCorner l).getLast? = l.getLast? := by
  unfold insertEndCorner
  split
  · rename_i e p rr heq
    split
    · rw [List.getLast?_reverse, ← List.head?_reverse l, heq]
      rfl
    · rfl
  · rfl

theorem enforce_head (l : List Pt) :
    (enforceRightAngleEndpoints l).head? = l.head? := by
  unfold enforceRightAngleEndpoints
  split
  · rfl
  · split
    · rename_i s n rest
      rw [compress_head, insertEndCorner_head]
      split <;> rfl
    · rfl

theorem enforce_last (l : List Pt) :
    (enforceRightAngleEndpoints l).getLast? = l.getLast? := by
  unfold enforceRightAngleEndpoints
  split
  · rfl
  · split
    · rename_i s n rest
      rw [compress_last, insertEndCorner_last]
      split
      · rw [List.getLast?_cons_cons, List.getLast?_cons_cons, List.getLast?_cons_cons]
      · rfl
    · rfl

theorem setLastP_getLast? (v : Pt) : ∀ l : List Pt, l ≠ [] →
    (setLastP l v).getLast? = some v := by
  intro l
  induction l with
  | nil => intro h; cases h rfl
  | cons a t ih =>
    intro _
    cases t with
    | nil => rfl
    | cons b t2 =>
      show (a :: setLastP (b :: t2) v).getLast? = some v
      have h2 := ih (by simp)
      cases hm : setLastP (b :: t2) v with
      | nil => rw [hm] at h2; cases h2
      | cons x xs =>
        rw [hm] at h2
        rw [List.getLast?_cons_cons]
        exact h2


theorem substEnds_head (sw ew : Pt) (path : List Pt) (h : 2 ≤ path.length) :
    (substEnds sw ew path).head? = some sw := by
  rcases path with _ | ⟨a, _ | ⟨b, t⟩⟩
  · simp at h
  · simp at h
  · rfl

theorem substEnds_last (sw ew : Pt) (path : List Pt) (h : path ≠ []) :
    (substEnds sw ew path).getLast? = some ew := by
  rcases path with _ | ⟨a, t⟩
  · cases h rfl
  · exact setLastP_getLast? ew (sw :: t) (by simp)

/-- The axis-sharing relation of a non-diagonal pair. -/
def axisP (a b : Pt) : Prop := a.1 = b.1 ∨ a.2 = b.2

theorem axisP_symm {a b : Pt} (h : axisP a b) : axisP b a := by
  rcases h with h | h
  · exact Or.inl h.symm
  · exact Or.inr h.symm

/-- Every stored parent link joins axis-sharing cells. -/
def CameOK (came : List (Pt × Pt)) : Prop := ∀ pr ∈ came, axisP pr.1 pr.2

theorem aget_axis {came : List (Pt × Pt)} (h : CameOK came) {k prev : Pt}
    (hk : aget came k = some prev) : axisP k prev := by
  unfold aget at hk
  obtain ⟨e, he, hev⟩ := Option.map_eq_some'.mp hk
  have hmem := List.mem_of_find?_eq_some he
  have hpred := List.find?_some he
  have hek : e.1 = k := by simpa using hpred
  have := h e hmem
  rw [hek, hev] at this
  exact this

theorem backtrack_chain {came : List (Pt × Pt)} (h : CameOK came) :
    ∀ (fuel : Nat) (k : Pt) (acc : List Pt), acc ≠ [] → acc.head? = some k →
      List.Chain' axisP acc →
      List.Chain' axisP (backtrackGo came fuel k acc) ∧ backtrackGo came fuel k acc ≠ [] := by
  intro fuel
  induction fuel with
  | zero => intro k acc hne _ hch; exact ⟨hch, hne⟩
  | succ n ih =>
    intro k acc hne hhead hch
    unfold backtrackGo
    cases hk : aget came k with
    | none => exact ⟨hch, hne⟩
    | some prev =>
      apply ih prev (prev :: acc) (by simp) rfl
      rw [List.chain'_cons']
      refine ⟨?_, hch⟩
      intro y hy
      rw [hhead] at hy
      cases hy
      exact axisP_symm (aget_axis h hk)

theorem aset_pres {α : Type} (P : Pt × α → Prop) (m : List (Pt × α)) (k : Pt) (v : α)
    (h : ∀ pr ∈ m, P pr) (hkv : P (k, v)) : ∀ pr ∈ aset m k v, P pr := by
  unfold aset
  split
  · intro pr hpr
    obtain ⟨e, he, hev⟩ := List.mem_map.mp hpr
    by_cases hek : e.1 = k
    · rw [if_pos hek] at hev
      exact hev ▸ hkv
    · rw [if_neg hek] at hev
      exact hev ▸ h e he
  · intro pr hpr
    rcases List.mem_append.mp hpr with hold | hnew
    · exact h pr hold
    · cases List.mem_singleton.mp hnew
      exact hkv

theorem relaxNb_cameOK (bnds : Bounds) (obs : List AARect) (goal current : Pt)
    (st : AState) (nb : Pt) (h : CameOK st.came) (hnb : axisP nb current) :
    CameOK (relaxNb bnds obs goal current st nb).came := by
  unfold relaxNb
  split
  · exact h
  · split
    · exact h
    · cases aget st.g current with
      | none => exact h
      | some gc =>
        dsimp only
        split
        · exact aset_pres _ st.came nb current h hnb
        · exact h

theorem neighborsOf_axis (c : Pt) (step : Q) :
    ∀ nb ∈ neighborsOf c step, axisP nb c := by
  intro nb hnb
  simp only [neighborsOf, List.mem_cons, List.mem_singleton, List.not_mem_nil,
    or_false] at hnb
  rcases hnb with rfl | rfl | rfl | rfl
  · exact Or.inr rfl
  · exact Or.inr rfl
  · exact Or.inl rfl
  · exact Or.inl rfl

theorem foldl_relax_cameOK (bnds : Bounds) (obs : List AARect) (goal current : Pt)
    (nbs : List Pt) (hnbs : ∀ nb ∈ nbs, axisP nb current) :
    ∀ st : AState, CameOK st.came →
      CameOK ((nbs.foldl (relaxNb bnds obs goal current) st).came) := by
  induction nbs with
  | nil => intro st h; exact h
  | cons nb nbs ih =>
    intro st h
    simp only [List.foldl_cons]
    exact ih (fun x hx => hnbs x (List.mem_cons_of_mem _ hx)) _
      (relaxNb_cameOK bnds obs goal current st nb h (hnbs nb (List.mem_cons_self _ _)))

theorem astarLoop_some (sw ew goal : Pt) (obs : List AARect) (step : Q) (bnds : Bounds) :
    ∀ (fuel : Nat) (st : AState) (l : List Pt), CameOK st.came →
      (astarLoop sw ew goal obs step bnds fuel st).1 = some l →
      ∃ path : List Pt, path ≠ [] ∧ List.Chain' axisP path ∧
        l = compressOrthogonal (substEnds sw ew path) := by
  intro fuel
  induction fuel with
  | zero => intro st l _ hl; cases hl
  | succ n ih =>
    intro st l hok hl
    unfold astarLoop at hl
    cases hopen : st.openL with
    | nil => rw [hopen] at hl; cases hl
    | cons a as =>
      rw [hopen] at hl
      dsimp only at hl
      split at hl
      · have hb := backtrack_chain hok (st.came.length + 1)
          (List.getD (a :: as) (bestIndex (a :: as) st.f) (0, 0))
          [List.getD (a :: as) (bestIndex (a :: as) st.f) (0, 0)] (by simp) rfl
          (List.chain'_singleton _)
        refine ⟨backtrackGo st.came (st.came.length + 1)
          (List.getD (a :: as) (bestIndex (a :: as) st.f) (0, 0))
          [List.getD (a :: as) (bestIndex (a :: as) st.f) (0, 0)], hb.2, hb.1, ?_⟩
        cases hl
        rfl
      · exact ih _ l
          (foldl_relax_cameOK bnds obs goal _ _ (neighborsOf_axis _ step) _
            (by simpa using hok)) hl

/-- Every successful route is the compression of a substituted, axis-chained
reconstruction path. -/
theorem route_some (sw ew : Pt) (obs : List AARect) (step : Q) (l : List Pt)
    (h : routeManhattanAStar sw ew obs step = some l) :
    ∃ path : List Pt, path ≠ [] ∧ List.Chain' axisP path ∧
      l = compressOrthogonal (substEnds sw ew path) := by
  unfold routeManhattanAStar routeInner at h
  exact astarLoop_some sw ew _ obs step _ ROUTE_MAX_ITERS _ l
    (fun pr hpr => absurd hpr (List.not_mem_nil _)) h

/-- Claim C10, amended: the final polyline starts at the exact source anchor
and ends at the exact target anchor whenever the A* path has at least two
points, and always on the fallback path; a one-point path instead collapses
to the target anchor alone. -/
theorem claim_c10_amended (sw ew : Pt) (obs : List AARect) (step : Q)
    (h : ∀ l, routeManhattanAStar sw ew obs step = some l → 2 ≤ l.length) :
    (edgeRoutePts sw ew obs step).head? = some sw ∧
    (edgeRoutePts sw ew obs step).getLast? = some ew := by
  unfold edgeRoutePts
  cases hroute : routeManhattanAStar sw ew obs step with
  | none =>
    rw [enforce_head, enforce_last]
    unfold fallbackPts
    rw [compress_head, compress_last]
    exact ⟨rfl, rfl⟩
  | some l =>
    rw [enforce_head, enforce_last]
    obtain ⟨path, hne, hch, hl⟩ := route_some sw ew obs step l hroute
    have hlen := h l hroute
    rcases path with _ | ⟨p1, _ | ⟨p2, pr⟩⟩
    · cases hne rfl
    · exfalso
      rw [hl] at hlen
      simp [substEnds, setHeadP, setLastP, compressOrthogonal] at hlen
    · rw [hl, compress_head, compress_last,
        substEnds_head sw ew _ (by simp), substEnds_last sw ew _ (by simp)]
      exact ⟨rfl, rfl⟩

/-- Claim C10, counterexample: when start and goal snap to the same grid
cell the single-point path is overwritten by the target anchor, so the
returned polyline does not start at the source anchor. -/
theorem claim_c10_counterexample :
    edgeRoutePts (2, 3) (5, 6) [] 24 = [(5, 6)] ∧
    ((2 : Q), (3 : Q)) ≠ ((5 : Q), (6 : Q)) := by decide

/-- Witness for the amended claim C10 on a concrete two-point route. -/
theorem claim_c10_witness :
    (edgeRoutePts (2, 3) (22, 10) [] 24).head? = some (2, 3) ∧
    (edgeRoutePts (2, 3) (22, 10) [] 24).getLast? = some (22, 10) := by
  apply claim_c10_amended
  intro l hl
  have hroute : routeManhattanAStar (2, 3) (22, 10) [] 24 = some [(2, 3), (22, 10)] := by
    decide
  rw [hroute] at hl
  cases hl
  decide


